import Mathlib

/-!
Verification development for the Facebook human-vs-robot bidder pipeline
(`facebook_notebook.ipynb`).

The notebook is a linear batch pipeline over three CSV tables.  We embed the
parts of it that the documented properties talk about:

* the bid-log normalizer (`df_bids.replace({' ': ''}, regex = True)`),
* the chronological aggregator (sort by `['bidder_id', 'time']`, group by
  `bidder_id`, per-column tagged token strings, `nunique` counts, and the
  consecutive time-difference statistics),
* the roster join (`df_train.append(df_test)` left-merged with the
  aggregated table) and the train/test re-split,
* the `MinMaxScaler` fitted on `np.vstack((xtrain, xtest))`,
* `SelectPercentile(chi2, 25)`'s support-mask computation,
* the 15-seed bagged classifier average and the submission writer.

Strings of the source data are modelled as `List Char` (identifiers, which
are only ever compared and sorted, as `String`); timestamps as `Int`;
floating-point feature values as `ℚ` (every arithmetic operation the claims
mention — differences, means, min-max scaling, percentile interpolation,
averaging — is exact on the data involved).  A bid-log cell that pandas
reads as `NaN` is `none`.  External learned components (the tfidf
vectorizers and the xgboost classifier) are out of scope per the design
notes; the classifier enters only as an opaque `predictProba` argument of
the pipeline tail.  Scalar aggregate columns that no documented property
mentions (`maxtime`, `mintime`, mean/median/deciles of the diffs) are
omitted from the aggregated row; they are built exactly like `maxdiff_num`.
-/

namespace Facebook

/-- The designated categorical columns of the bid log — the notebook's
`text_cols` list minus the derived `timediff` column, which is computed
from timestamps and is modelled separately. -/
inductive TextCol
  | auction | merchandise | device | country | ip | url
deriving DecidableEq

/-- The column-name tag prepended to every value of a column
(`df_bids_sorted[var] = var + "_" + df_bids_sorted[var].fillna("")`;
the trailing underscore is added separately, mirroring the source). -/
def TextCol.tag : TextCol → List Char
  | .auction => "auction".data
  | .merchandise => "merchandise".data
  | .device => "device".data
  | .country => "country".data
  | .ip => "ip".data
  | .url => "url".data

/-- One row of `bids.csv`: the actor identity, the opaque integer
timestamp, and the cell contents of each designated categorical column
(`none` models a cell pandas reads as `NaN`). -/
structure Bid where
  bidder_id : String
  time : Int
  vals : TextCol → Option (List Char)

/-- `df.replace({' ': ''}, regex = True)` on one string: every space
character is deleted. -/
def stripSpaces (s : List Char) : List Char := s.filter (fun c => c ≠ ' ')

/-- The bid normalizer applied to one row: all string cells (including the
identifier column) lose their spaces; the numeric timestamp is untouched. -/
def normBid (b : Bid) : Bid where
  bidder_id := ⟨stripSpaces b.bidder_id.data⟩
  time := b.time
  vals := fun c => (b.vals c).map stripSpaces

/-- `df_bids = df_bids.replace({' ': ''}, regex = True)`. -/
def normBids (log : List Bid) : List Bid := log.map normBid

/-- The sort key of `df_bids.sort(['bidder_id', 'time'], ascending =
[True, True])`: lexicographic on (identity, timestamp).  pandas sorts a
multi-column key with `np.lexsort`, which is a stable sort, so the whole
sort is modelled by the (stable) insertion sort under this relation.
(Identifiers are compared through their character lists so that the
comparison evaluates by kernel reduction.) -/
def bidLe (x y : Bid) : Prop :=
  x.bidder_id.data < y.bidder_id.data ∨
    (x.bidder_id = y.bidder_id ∧ x.time ≤ y.time)

instance : DecidableRel bidLe := fun x y =>
  inferInstanceAs (Decidable (_ ∨ _))

theorem String.data_eq_iff {x y : String} : x.data = y.data ↔ x = y :=
  ⟨fun h => by cases x; cases y; cases h; rfl, fun h => h ▸ rfl⟩

instance : IsTrans Bid bidLe where
  trans x y z hxy hyz := by
    rcases hxy with h1 | ⟨h1, h1t⟩ <;> rcases hyz with h2 | ⟨h2, h2t⟩
    · exact Or.inl (lt_trans h1 h2)
    · exact Or.inl (String.data_eq_iff.mpr h2 ▸ h1)
    · exact Or.inl (String.data_eq_iff.mpr h1 ▸ h2)
    · exact Or.inr ⟨h1.trans h2, le_trans h1t h2t⟩

instance : IsTotal Bid bidLe where
  total x y := by
    rcases lt_trichotomy x.bidder_id.data y.bidder_id.data with h | h | h
    · exact Or.inl (Or.inl h)
    · rcases le_total x.time y.time with ht | ht
      · exact Or.inl (Or.inr ⟨String.data_eq_iff.mp h, ht⟩)
      · exact Or.inr (Or.inr ⟨(String.data_eq_iff.mp h).symm, ht⟩)
    · exact Or.inr (Or.inl h)

/-- Timestamp-only comparison, the per-group chronological order. -/
def timeLe (x y : Bid) : Prop := x.time ≤ y.time

instance : DecidableRel timeLe := fun x y =>
  inferInstanceAs (Decidable (_ ≤ _))

instance : IsTrans Bid timeLe where
  trans _ _ _ h1 h2 := le_trans h1 h2

instance : IsTotal Bid timeLe where
  total x y := le_total x.time y.time

/-- `df_bids_sorted = df_bids.sort(['bidder_id', 'time'], ...)`. -/
def df_bids_sorted (log : List Bid) : List Bid :=
  List.insertionSort bidLe (normBids log)

/-- The rows of one actor's group, in the row order `groupby('bidder_id')`
exposes them (the order of the sorted frame). -/
def groupOf (log : List Bid) (a : String) : List Bid :=
  (df_bids_sorted log).filter (fun b => b.bidder_id = a)

/-- The index of the aggregated `bids` frame:
`df_bids_sorted['bidder_id'].unique()` — each actor identity once. -/
def actorIds (log : List Bid) : List String :=
  ((df_bids_sorted log).map (fun b => b.bidder_id)).dedup

/-- The tagged token one bid event contributes to one categorical column:
`var + "_" + value.fillna("")`. -/
def tokenOf (c : TextCol) (b : Bid) : List Char :=
  c.tag ++ '_' :: ((b.vals c).getD [])

/-- Single-space join, `' '.join(x)` (pandas `apply(lambda x: ' '.join(x))`). -/
def joinSp : List (List Char) → List Char
  | [] => []
  | [t] => t
  | t :: ts => t ++ ' ' :: joinSp ts

/-- Single-space split, the notebook's tokenizer `tokens(x) = x.split(' ')`
(Python `str.split` with an explicit separator keeps empty fields). -/
def splitSp : List Char → List (List Char)
  | [] => [[]]
  | c :: rest =>
    match splitSp rest with
    | [] => [[c]]
    | t :: ts => if c = ' ' then [] :: t :: ts else (c :: t) :: ts

/-- The chronologically ordered token sequence of one actor for one
column, before joining. -/
def fpTokens (log : List Bid) (c : TextCol) (a : String) : List (List Char) :=
  (groupOf log a).map (tokenOf c)

/-- The per-actor fingerprint string of one categorical column:
`bids[var + '_text'] = groupby('bidder_id')[var].apply(' '.join)`. -/
def textFeature (log : List Bid) (c : TextCol) (a : String) : List Char :=
  joinSp (fpTokens log c a)

/-- `bids[var + '_nunique_num'] = groupby('bidder_id')[var].nunique()`,
computed on the already tagged-and-imputed column. -/
def nunique_num (log : List Bid) (c : TextCol) (a : String) : ℕ :=
  ((groupOf log a).map (tokenOf c)).dedup.length

/-- `groupby('bidder_id')['time'].diff()` restricted to one group: the
first row has no predecessor (`NaN`), each later row carries the
difference to the previous row's timestamp. -/
def diffSeq : List Bid → List (Option Int)
  | [] => []
  | b :: rest =>
    none :: List.zipWith (fun p q => some (q.time - p.time)) (b :: rest) rest

/-- Little-endian decimal digits of a natural number as characters; the
fuel argument (any bound on the digit count, here the number itself)
keeps the recursion structural. -/
def digitsRev (fuel n : ℕ) : List Char :=
  match fuel with
  | 0 => []
  | fuel + 1 => if n = 0 then [] else Nat.digitChar (n % 10) :: digitsRev fuel (n / 10)

/-- Decimal digits of a natural number as characters. -/
def natStr (n : ℕ) : List Char :=
  if n = 0 then ['0'] else (digitsRev n n).reverse

/-- Decimal string of an integer. -/
def intStr (d : Int) : List Char :=
  if d < 0 then '-' :: natStr d.natAbs else natStr d.toNat

/-- The string pandas' `astype(str)` produces for an integer-valued
float64 difference: the integer followed by `.0` (the diff column is
float-typed because of the leading `NaN`).  The exact decimal rendering is
irrelevant to every documented property; what matters is that it contains
no space. -/
def floatStr (d : Int) : List Char := intStr d ++ ['.', '0']

/-- One token of the `timediff` pseudo-column:
`'timediff' + '_' + timediff.astype(str).fillna('')`.  pandas
`astype(str)` converts every element of the float64 series with `str()`,
turning the group-leading `NaN` into the string `'nan'`; after that the
column holds no missing value, so this `fillna('')` — and the later
`fillna("")` in the tagging loop — are dead code.  The missing first
difference is therefore rendered as `nan`, and still receives the tag. -/
def timediffTok (o : Option Int) : List Char :=
  "timediff".data ++ '_' :: (o.elim "nan".data floatStr)

/-- The chronological token sequence of the `timediff` pseudo-column. -/
def timediffTokens (log : List Bid) (a : String) : List (List Char) :=
  (diffSeq (groupOf log a)).map timediffTok

/-- `bids['timediff_text']`: the space-joined string form of the
time-difference sequence of one actor. -/
def timediff_text (log : List Bid) (a : String) : List Char :=
  joinSp (timediffTokens log a)

/-- The defined (non-`NaN`) consecutive time differences of one actor. -/
def validDiffs (log : List Bid) (a : String) : List Int :=
  (diffSeq (groupOf log a)).filterMap id

/-- `groupby('bidder_id')['timediff_num'].max()` for one actor: pandas
skips `NaN` entries; a group with no defined diff yields `NaN`. -/
def maxDiffRaw (log : List Bid) (a : String) : Option ℚ :=
  match validDiffs log a with
  | [] => none
  | d :: ds => some ((ds.foldl max d : Int) : ℚ)

/-- `max_diff.mean()`: the mean of the per-actor maxima over the actors
that have one (`NaN` when no actor does). -/
def meanMaxDiff (log : List Bid) : Option ℚ :=
  match (actorIds log).filterMap (maxDiffRaw log) with
  | [] => none
  | v :: vs => some ((v :: vs).sum / (v :: vs).length)

/-- `bids['maxdiff_num']`: the per-actor maximum diff, with actors lacking
one imputed by the population mean (`max_diff.fillna(max_diff.mean())`). -/
def maxdiff_num (log : List Bid) (a : String) : Option ℚ :=
  match maxDiffRaw log a with
  | some v => some v
  | none => meanMaxDiff log

/-- `bids['mindiff_num']`: the source recomputes
`groupby('bidder_id')['timediff_num'].max()` (not `.min()`) for this
column — line `min_diff = df_bids_sorted.groupby('bidder_id')
['timediff_num'].max()` — so the definition coincides with
`maxdiff_num`. -/
def mindiff_num (log : List Bid) (a : String) : Option ℚ :=
  match maxDiffRaw log a with
  | some v => some v
  | none => meanMaxDiff log

/-- `bids['rangediff_num'] = max_diff - min_diff` (both already imputed). -/
def rangediff_num (log : List Bid) (a : String) : Option ℚ :=
  match maxdiff_num log a, mindiff_num log a with
  | some M, some m => some (M - m)
  | _, _ => none

/-! ### The space join and the space split are mutually inverse on
space-free token lists -/

theorem splitSp_ne_nil : ∀ s : List Char, splitSp s ≠ []
  | [] => by simp [splitSp]
  | c :: rest => by
    unfold splitSp
    cases h : splitSp rest with
    | nil => simp
    | cons t ts => by_cases hc : c = ' ' <;> simp [hc]

theorem splitSp_of_nospace : ∀ {t : List Char}, ' ' ∉ t → splitSp t = [t]
  | [], _ => rfl
  | c :: rest, h => by
    have hc : c ≠ ' ' := fun e => h (e ▸ List.mem_cons_self c rest)
    have hr : ' ' ∉ rest := fun m => h (List.mem_cons_of_mem _ m)
    simp only [splitSp, splitSp_of_nospace hr]
    rw [if_neg hc]

theorem splitSp_append_space : ∀ {t : List Char} (r : List Char), ' ' ∉ t →
    splitSp (t ++ ' ' :: r) = t :: splitSp r
  | [], r, _ => by
    rw [List.nil_append]
    cases h : splitSp r with
    | nil => exact absurd h (splitSp_ne_nil r)
    | cons u us => simp [splitSp, h]
  | c :: t, r, h => by
    have hc : c ≠ ' ' := fun e => h (e ▸ List.mem_cons_self c t)
    have ht : ' ' ∉ t := fun m => h (List.mem_cons_of_mem _ m)
    rw [List.cons_append]
    simp only [splitSp, splitSp_append_space (t := t) r ht]
    rw [if_neg hc]

theorem splitSp_joinSp : ∀ {ts : List (List Char)}, ts ≠ [] →
    (∀ t ∈ ts, ' ' ∉ t) → splitSp (joinSp ts) = ts
  | [], hne, _ => absurd rfl hne
  | [t], _, h => by
    unfold joinSp
    exact splitSp_of_nospace (h t (List.mem_singleton_self t))
  | t :: t' :: ts, _, h => by
    have hjoin : joinSp (t :: t' :: ts) = t ++ ' ' :: joinSp (t' :: ts) := rfl
    rw [hjoin, splitSp_append_space _ (h t (List.mem_cons_self _ _)),
      splitSp_joinSp (List.cons_ne_nil t' ts)
        (fun u hu => h u (List.mem_cons_of_mem _ hu))]

/-! ### A stable sort commutes with filtering, and restricted to one
actor the lexicographic key orders by timestamp alone -/

theorem orderedInsert_of_forall {α : Type} (r : α → α → Prop) [DecidableRel r]
    {x : α} : ∀ {s : List α}, (∀ z ∈ s, r x z) →
    List.orderedInsert r x s = x :: s
  | [], _ => rfl
  | z :: t, h => by
    unfold List.orderedInsert
    rw [if_pos (h z (List.mem_cons_self z t))]

theorem orderedInsert_of_not {α : Type} (r : α → α → Prop) [DecidableRel r]
    {a b : α} (l : List α) (h : ¬r a b) :
    List.orderedInsert r a (b :: l) = b :: List.orderedInsert r a l := by
  rw [List.orderedInsert, if_neg h]

theorem orderedInsert_filter_neg {α : Type} (r : α → α → Prop) [DecidableRel r]
    (p : α → Bool) (x : α) (hx : p x = false) :
    ∀ s : List α, (List.orderedInsert r x s).filter p = s.filter p
  | [] => by rw [List.orderedInsert_nil, List.filter_cons_of_neg (by simp [hx]), List.filter_nil]
  | y :: t => by
    by_cases hr : r x y
    · rw [List.orderedInsert_of_le r t hr, List.filter_cons_of_neg (by simp [hx])]
    · rw [orderedInsert_of_not r t hr]
      cases hp : p y with
      | true =>
        rw [List.filter_cons_of_pos hp, List.filter_cons_of_pos hp,
          orderedInsert_filter_neg r p x hx t]
      | false =>
        rw [List.filter_cons_of_neg (by simp [hp]), List.filter_cons_of_neg (by simp [hp]),
          orderedInsert_filter_neg r p x hx t]

theorem orderedInsert_filter_pos {α : Type} (r : α → α → Prop) [DecidableRel r]
    [IsTrans α r] (p : α → Bool) (x : α) (hx : p x = true) :
    ∀ {s : List α}, s.Sorted r →
    (List.orderedInsert r x s).filter p = List.orderedInsert r x (s.filter p)
  | [], _ => by
    rw [List.orderedInsert_nil, List.filter_nil, List.filter_cons_of_pos hx,
      List.filter_nil, List.orderedInsert_nil]
  | y :: t, hs => by
    have hst : t.Sorted r := hs.of_cons
    have hyall : ∀ z ∈ t, r y z := (List.sorted_cons.mp hs).1
    by_cases hr : r x y
    · rw [List.orderedInsert_of_le r t hr]
      cases hp : p y with
      | true =>
        rw [List.filter_cons_of_pos hx, List.filter_cons_of_pos hp]
        exact (List.orderedInsert_of_le r _ hr).symm
      | false =>
        rw [List.filter_cons_of_pos hx, List.filter_cons_of_neg (by simp [hp])]
        exact (orderedInsert_of_forall r (fun z hz =>
          IsTrans.trans x y z hr (hyall z (List.mem_of_mem_filter hz)))).symm
    · rw [orderedInsert_of_not r t hr]
      cases hp : p y with
      | true =>
        rw [List.filter_cons_of_pos hp, List.filter_cons_of_pos hp,
          orderedInsert_of_not r _ hr, orderedInsert_filter_pos r p x hx hst]
      | false =>
        rw [List.filter_cons_of_neg (by simp [hp]), List.filter_cons_of_neg (by simp [hp]),
          orderedInsert_filter_pos r p x hx hst]

theorem filter_insertionSort {α : Type} (r : α → α → Prop) [DecidableRel r]
    [IsTotal α r] [IsTrans α r] (p : α → Bool) (l : List α) :
    (List.insertionSort r l).filter p = List.insertionSort r (l.filter p) := by
  induction l with
  | nil => rfl
  | cons x t ih =>
    rw [List.insertionSort]
    cases hx : p x with
    | true =>
      rw [orderedInsert_filter_pos r p x hx (List.sorted_insertionSort r t), ih,
        List.filter_cons_of_pos hx, List.insertionSort]
    | false =>
      rw [orderedInsert_filter_neg r p x hx, ih, List.filter_cons_of_neg (by simp [hx])]

theorem bidLe_iff_timeLe {a : String} {x y : Bid}
    (hx : x.bidder_id = a) (hy : y.bidder_id = a) : bidLe x y ↔ timeLe x y := by
  unfold bidLe timeLe
  rw [hx, hy]
  constructor
  · rintro (hl | ⟨-, ht⟩)
    · exact absurd hl (lt_irrefl _)
    · exact ht
  · intro ht
    exact Or.inr ⟨rfl, ht⟩

theorem orderedInsert_bidLe_timeLe {a : String} {x : Bid} (hx : x.bidder_id = a) :
    ∀ {s : List Bid}, (∀ b ∈ s, b.bidder_id = a) →
    List.orderedInsert bidLe x s = List.orderedInsert timeLe x s
  | [], _ => rfl
  | y :: t, h => by
    have hy : y.bidder_id = a := h y (List.mem_cons_self y t)
    have hiff := bidLe_iff_timeLe hx hy
    unfold List.orderedInsert
    by_cases hr : timeLe x y
    · rw [if_pos hr, if_pos (hiff.mpr hr)]
    · rw [if_neg hr, if_neg (fun hh => hr (hiff.mp hh)),
        orderedInsert_bidLe_timeLe hx (fun b hb => h b (List.mem_cons_of_mem _ hb))]

theorem insertionSort_bidLe_timeLe (a : String) :
    ∀ {s : List Bid}, (∀ b ∈ s, b.bidder_id = a) →
    List.insertionSort bidLe s = List.insertionSort timeLe s
  | [], _ => rfl
  | x :: t, h => by
    have htail : ∀ b ∈ t, b.bidder_id = a := fun b hb => h b (List.mem_cons_of_mem _ hb)
    rw [List.insertionSort, List.insertionSort,
      insertionSort_bidLe_timeLe a htail,
      orderedInsert_bidLe_timeLe (h x (List.mem_cons_self x t))
        (fun b hb => htail b ((List.perm_insertionSort timeLe t).mem_iff.mp hb))]

/-- The group `groupby('bidder_id')` exposes for each actor is exactly the
actor's (normalized) events, stably sorted by timestamp alone. -/
theorem groupOf_eq_timeSorted (log : List Bid) (a : String) :
    groupOf log a =
      List.insertionSort timeLe ((normBids log).filter (fun b => b.bidder_id = a)) := by
  unfold groupOf df_bids_sorted
  rw [filter_insertionSort]
  exact insertionSort_bidLe_timeLe a
    (fun b hb => of_decide_eq_true (List.mem_filter.mp hb).2)

/-! ### Normalized values and tokens are space-free -/

theorem stripSpaces_nospace (s : List Char) : ' ' ∉ stripSpaces s := by
  intro h
  have := (List.mem_filter.mp h).2
  simp at this

theorem normBids_vals_nospace {log : List Bid} {b : Bid} {c : TextCol} {v : List Char}
    (hb : b ∈ normBids log) (hv : b.vals c = some v) : ' ' ∉ v := by
  rcases List.mem_map.mp hb with ⟨b₀, -, rfl⟩
  have hv' : (b₀.vals c).map stripSpaces = some v := hv
  cases hx : b₀.vals c with
  | none => rw [hx] at hv'; simp at hv'
  | some v₀ =>
    rw [hx] at hv'
    simp only [Option.map_some', Option.some.injEq] at hv'
    exact hv' ▸ stripSpaces_nospace v₀

theorem tag_nospace (c : TextCol) : ' ' ∉ c.tag := by
  cases c <;> decide

theorem tokenOf_nospace {log : List Bid} {b : Bid} (c : TextCol)
    (hb : b ∈ normBids log) : ' ' ∉ tokenOf c b := by
  intro hmem
  rcases List.mem_append.mp hmem with h | h
  · exact tag_nospace c h
  · rcases List.mem_cons.mp h with h | h
    · exact absurd h (by decide)
    · cases hx : b.vals c with
      | none => rw [hx] at h; simp at h
      | some v => rw [hx] at h; exact normBids_vals_nospace hb hx (by simpa using h)

theorem mem_of_mem_groupOf {log : List Bid} {a : String} {b : Bid}
    (hb : b ∈ groupOf log a) : b ∈ normBids log := by
  rw [groupOf_eq_timeSorted] at hb
  exact (List.mem_filter.mp ((List.perm_insertionSort timeLe _).mem_iff.mp hb)).1

theorem groupOf_ne_nil {log : List Bid} {a : String}
    (ha : a ∈ (normBids log).map (fun b => b.bidder_id)) : groupOf log a ≠ [] := by
  rcases List.mem_map.mp ha with ⟨b, hb, rfl⟩
  have hmem : b ∈ groupOf log b.bidder_id := by
    rw [groupOf_eq_timeSorted]
    exact (List.perm_insertionSort _ _).mem_iff.mpr (List.mem_filter.mpr ⟨hb, by simp⟩)
  exact List.ne_nil_of_mem hmem

theorem groupOf_length (log : List Bid) (a : String) :
    (groupOf log a).length = ((normBids log).filter (fun b => b.bidder_id = a)).length := by
  rw [groupOf_eq_timeSorted]
  exact (List.perm_insertionSort _ _).length_eq

theorem fpTokens_nospace (log : List Bid) (c : TextCol) (a : String) :
    ∀ t ∈ fpTokens log c a, ' ' ∉ t := by
  intro t ht
  rcases List.mem_map.mp ht with ⟨b, hb, rfl⟩
  exact tokenOf_nospace c (mem_of_mem_groupOf hb)

theorem fpTokens_ne_nil {log : List Bid} {a : String} (c : TextCol)
    (ha : a ∈ (normBids log).map (fun b => b.bidder_id)) : fpTokens log c a ≠ [] := by
  unfold fpTokens
  simp only [ne_eq, List.map_eq_nil]
  exact groupOf_ne_nil ha

theorem digitsRev_nospace : ∀ fuel n : ℕ, ' ' ∉ digitsRev fuel n
  | 0, _ => by simp [digitsRev]
  | fuel + 1, n => by
    unfold digitsRev
    by_cases h : n = 0
    · simp [h]
    · rw [if_neg h]
      intro hmem
      rcases List.mem_cons.mp hmem with hc | hc
      · have hlt : n % 10 < 10 := Nat.mod_lt n (by norm_num)
        revert hc
        generalize n % 10 = m at hlt
        interval_cases m <;> decide
      · exact digitsRev_nospace fuel (n / 10) hc

theorem natStr_nospace (n : ℕ) : ' ' ∉ natStr n := by
  unfold natStr
  split
  · decide
  · intro h
    rw [List.mem_reverse] at h
    exact digitsRev_nospace n n h

theorem intStr_nospace (d : Int) : ' ' ∉ intStr d := by
  unfold intStr
  split
  · intro h
    rcases List.mem_cons.mp h with h | h
    · exact absurd h (by decide)
    · exact natStr_nospace _ h
  · exact natStr_nospace _

theorem floatStr_nospace (d : Int) : ' ' ∉ floatStr d := by
  intro h
  rcases List.mem_append.mp h with h | h
  · exact intStr_nospace d h
  · exact absurd h (by decide)

theorem timediffTok_nospace (o : Option Int) : ' ' ∉ timediffTok o := by
  intro h
  rcases List.mem_append.mp h with h | h
  · revert h; decide
  · rcases List.mem_cons.mp h with h | h
    · exact absurd h (by decide)
    · cases o with
      | none => exact absurd h (by decide)
      | some d => exact floatStr_nospace d h

theorem diffSeq_length : ∀ g : List Bid, (diffSeq g).length = g.length
  | [] => rfl
  | b :: rest => by
    simp only [diffSeq, List.length_cons, List.length_zipWith]
    omega

/-! ### Claim C1: the emitted min-diff and range-diff statistics -/

/-- A bid log with one actor and timestamps 10, 15, 40 (the spec's §8
end-to-end scenario): the consecutive differences are 5 and 25. -/
def exLogC1 : List Bid :=
  [⟨"a", 10, fun _ => none⟩, ⟨"a", 15, fun _ => none⟩, ⟨"a", 40, fun _ => none⟩]

/-- C1: the claim says `mindiff_num` is the minimum of the consecutive
differences and `rangediff_num` their maximum minus their minimum.  On
the diff sequence `[5, 25]` that would be `5` and `20`.  The code instead
recomputes the per-actor maximum for the `mindiff_num` column (source:
`min_diff = ...groupby('bidder_id')['timediff_num'].max()`), so it emits
`mindiff_num = 25` and `rangediff_num = 0` — the claim is right about the
intent and the code is a copy-paste slip (flagged in the spec's design
notes). -/
theorem c1_mindiff_rangediff_eval :
    validDiffs exLogC1 "a" = [5, 25] ∧
    mindiff_num exLogC1 "a" = some 25 ∧
    rangediff_num exLogC1 "a" = some 0 := by
  refine ⟨by decide, by decide, ?_⟩
  have h1 : maxdiff_num exLogC1 "a" = some 25 := by decide
  have h2 : mindiff_num exLogC1 "a" = some 25 := by decide
  unfold rangediff_num
  rw [h1, h2]
  show some ((25 : ℚ) - 25) = some 0
  norm_num

/-! ### Claim C3: fingerprint token order is the stable chronological
order of the actor's events -/

/-- C3: for every actor present in the (normalized) bid log and every
designated categorical column, splitting the actor's fingerprint string
on spaces yields exactly the actor's events stably sorted by timestamp
alone (ties keep input order — `insertionSort` is stable), each mapped to
its tagged token. -/
theorem c3_fingerprint_tokens_chronological (log : List Bid) (a : String) (c : TextCol)
    (ha : a ∈ (normBids log).map (fun b => b.bidder_id)) :
    splitSp (textFeature log c a) =
      (List.insertionSort timeLe ((normBids log).filter (fun b => b.bidder_id = a))).map
        (tokenOf c) := by
  rw [textFeature, splitSp_joinSp (fpTokens_ne_nil c ha) (fpTokens_nospace log c a),
    fpTokens, groupOf_eq_timeSorted]

/-- A log for the C3 witness: actor `a` bids at times 10, 40, 15 (out of
order in the input) plus a second actor. -/
def exLogC3 : List Bid :=
  [⟨"a", 10, fun _ => some "x".data⟩, ⟨"z", 5, fun _ => some "w".data⟩,
   ⟨"a", 40, fun _ => some "y".data⟩, ⟨"a", 15, fun _ => some "x".data⟩]

theorem c3_fingerprint_tokens_chronological_witness :
    "a" ∈ (normBids exLogC3).map (fun b => b.bidder_id) ∧
    splitSp (textFeature exLogC3 .device "a") =
      (List.insertionSort timeLe ((normBids exLogC3).filter (fun b => b.bidder_id = "a"))).map
        (tokenOf .device) :=
  ⟨by decide, c3_fingerprint_tokens_chronological exLogC3 "a" .device (by decide)⟩

/-! ### Claim C9: normalization leaves no spaces, so the space-join is
invertible -/

/-- C9: (i) after normalization no stored field value contains a space;
(ii) consequently, splitting an actor's fingerprint string on single
spaces recovers exactly the chronological sequence of tagged per-event
tokens it was joined from. -/
theorem c9_space_free_join_invertible :
    (∀ (log : List Bid), ∀ b ∈ normBids log, ∀ (c : TextCol) (v : List Char),
        b.vals c = some v → ' ' ∉ v) ∧
    (∀ (log : List Bid) (c : TextCol) (a : String),
        a ∈ (normBids log).map (fun b => b.bidder_id) →
        splitSp (textFeature log c a) = fpTokens log c a) :=
  ⟨fun _ _ hb _ _ hv => normBids_vals_nospace hb hv,
   fun log c a ha =>
     splitSp_joinSp (fpTokens_ne_nil c ha) (fpTokens_nospace log c a)⟩

/-- A log for the C9 witness: a raw value containing spaces. -/
def exLogC9 : List Bid :=
  [⟨"a", 3, fun _ => some "p q".data⟩, ⟨"a", 7, fun _ => some " r ".data⟩]

theorem c9_space_free_join_invertible_witness :
    splitSp (textFeature exLogC9 .country "a") = fpTokens exLogC9 .country "a" :=
  c9_space_free_join_invertible.2 exLogC9 .country "a" (by decide)

/-! ### Claim C10: the time-difference string has one token per event;
its first token carries `nan`, not the bare tag -/

/-- A log on which to evaluate the `timediff` string: actor `a` has three
events, so the string must split into three tokens. -/
def exLogC10 : List Bid :=
  [⟨"a", 100, fun _ => none⟩, ⟨"a", 250, fun _ => none⟩, ⟨"b", 1, fun _ => none⟩,
   ⟨"a", 250, fun _ => none⟩]

/-- C10 counterexample: the claim says the first token of an actor's
time-difference string is the bare tag `timediff_`, the undefined first
difference being rendered as an empty string.  But `astype(str)` renders
the leading `NaN` as the string `nan` (the subsequent `fillna('')` acts
on an already string-typed column and is dead code), so the program's
first token is `timediff_nan`: on `exLogC10` the first token is
`timediff_nan`, not `timediff_`. -/
theorem c10_first_token_counterexample :
    (splitSp (timediff_text exLogC10 "a")).head? = some "timediff_nan".data ∧
    ¬(splitSp (timediff_text exLogC10 "a")).head? = some "timediff_".data := by
  exact ⟨by decide, by decide⟩

/-- C10 amended: for every actor with at least one bid event, the
space-split of the actor's `timediff_text` string has exactly as many
tokens as the actor has bid events, and its first token is
`timediff_nan` — the first event's undefined difference is rendered by
`astype(str)` as the string `nan` (not as an empty string, the `fillna`
calls being dead code) and still receives the column-name tag. -/
theorem c10_timediff_token_count_first_nan (log : List Bid) (a : String)
    (ha : a ∈ (normBids log).map (fun b => b.bidder_id)) :
    (splitSp (timediff_text log a)).length =
      ((normBids log).filter (fun b => b.bidder_id = a)).length ∧
    (splitSp (timediff_text log a)).head? = some "timediff_nan".data := by
  have hg : groupOf log a ≠ [] := groupOf_ne_nil ha
  have htoks : ∀ t ∈ timediffTokens log a, ' ' ∉ t := by
    intro t ht
    rcases List.mem_map.mp ht with ⟨o, -, rfl⟩
    exact timediffTok_nospace o
  have hne : timediffTokens log a ≠ [] := by
    unfold timediffTokens
    simp only [ne_eq, List.map_eq_nil]
    intro h
    exact hg (List.length_eq_zero.mp (by rw [← diffSeq_length (groupOf log a), h]; rfl))
  have hsplit : splitSp (timediff_text log a) = timediffTokens log a :=
    splitSp_joinSp hne htoks
  constructor
  · rw [hsplit, timediffTokens, List.length_map, diffSeq_length, groupOf_length]
  · rw [hsplit]
    rcases hgx : groupOf log a with _ | ⟨b, rest⟩
    · exact absurd hgx hg
    · rw [timediffTokens, hgx]
      rfl

theorem c10_timediff_token_count_first_nan_witness :
    (splitSp (timediff_text exLogC10 "a")).length =
      ((normBids exLogC10).filter (fun b => b.bidder_id = "a")).length ∧
    (splitSp (timediff_text exLogC10 "a")).head? = some "timediff_nan".data :=
  c10_timediff_token_count_first_nan exLogC10 "a" (by decide)

/-! ### Claim C8: the per-column unique-value count -/

/-- Spec-side definition, following the claim's words: the cardinality of
the set of distinct raw values appearing in the actor's bid events for
the column (a missing cell is not a value that "appears"). -/
def specRawValueCount (log : List Bid) (c : TextCol) (a : String) : ℕ :=
  ((groupOf log a).filterMap (fun b => b.vals c)).dedup.length

theorem filterMap_vals_eq_map_getD {L : List Bid} {c : TextCol}
    (h : ∀ b ∈ L, (b.vals c).isSome) :
    L.filterMap (fun b => b.vals c) = L.map (fun b => (b.vals c).getD []) := by
  induction L with
  | nil => rfl
  | cons b t ih =>
    have hb := h b (List.mem_cons_self b t)
    rcases hx : b.vals c with _ | v
    · rw [hx] at hb; simp at hb
    · simp only [List.filterMap_cons, List.map_cons, hx, Option.getD_some]
      rw [ih (fun x hx' => h x (List.mem_cons_of_mem _ hx'))]

/-- An actor with a defined value and a missing value in the same column:
`nunique` is computed on the tagged-and-imputed column, so the missing
cell becomes the bare tag and counts as one more distinct value. -/
def exLogC8 : List Bid :=
  [⟨"a", 1, fun _ => some "x".data⟩, ⟨"a", 2, fun _ => none⟩]

/-- C8 counterexample: on `exLogC8`, the emitted unique count for the
`url` column is 2 (token `url_x` plus the bare `url_` from the missing
cell) while only one distinct raw value appears, so the claim as stated
is false. -/
theorem c8_nunique_counterexample :
    nunique_num exLogC8 .url "a" = 2 ∧ specRawValueCount exLogC8 .url "a" = 1 ∧
    ¬ nunique_num exLogC8 .url "a" = specRawValueCount exLogC8 .url "a" := by
  refine ⟨by decide, by decide, by decide⟩

/-- C8 amended: for every actor and designated column, provided none of
the actor's events has a missing cell in that column, the emitted
unique-value count equals the cardinality of the set of distinct raw
values appearing in the actor's events for that column. -/
theorem c8_nunique_amended (log : List Bid) (c : TextCol) (a : String)
    (h : ∀ b ∈ groupOf log a, (b.vals c).isSome) :
    nunique_num log c a = specRawValueCount log c a := by
  unfold nunique_num specRawValueCount
  rw [filterMap_vals_eq_map_getD h]
  have hcomp : (groupOf log a).map (tokenOf c) =
      ((groupOf log a).map (fun b => (b.vals c).getD [])).map
        (fun v => c.tag ++ '_' :: v) := by
    rw [List.map_map]; rfl
  have hinj : Function.Injective (fun v : List Char => c.tag ++ '_' :: v) := by
    intro v1 v2 hv
    simpa using hv
  rw [hcomp, List.dedup_map_of_injective hinj, List.length_map]

def exLogC8w : List Bid :=
  [⟨"a", 1, fun _ => some "x".data⟩, ⟨"a", 2, fun _ => some "y".data⟩,
   ⟨"a", 5, fun _ => some "x".data⟩]

theorem c8_nunique_amended_witness :
    (∀ b ∈ groupOf exLogC8w "a", (b.vals TextCol.device).isSome) ∧
    nunique_num exLogC8w .device "a" = specRawValueCount exLogC8w .device "a" :=
  ⟨by decide, c8_nunique_amended exLogC8w .device "a" (by decide)⟩

/-! ### The record joiner and the train/test re-split -/

/-- One row of `train.csv` / `test.csv`: actor identity, raw
address/account fields, and the outcome label (`none` on every test-roster
row, where the column does not exist and the concatenation leaves `NaN`). -/
structure RosterRow where
  bidder_id : String
  payment_account : Option (List Char)
  address : Option (List Char)
  outcome : Option ℚ

/-- One row of the aggregated `bids` frame. -/
structure AggRow where
  bidder_id : String
  auction_count_num : ℕ
  textOf : TextCol → List Char
  nuniqueOf : TextCol → ℕ
  timediffText : List Char
  maxdiffNum : Option ℚ
  mindiffNum : Option ℚ
  rangediffNum : Option ℚ

def aggRow (log : List Bid) (a : String) : AggRow where
  bidder_id := a
  auction_count_num := (groupOf log a).length
  textOf := fun c => textFeature log c a
  nuniqueOf := fun c => nunique_num log c a
  timediffText := timediff_text log a
  maxdiffNum := maxdiff_num log a
  mindiffNum := mindiff_num log a
  rangediffNum := rangediff_num log a

/-- The aggregated `bids` frame: one row per actor identity (its index is
`df_bids_sorted['bidder_id'].unique()`). -/
def bidsTable (log : List Bid) : List AggRow :=
  (actorIds log).map (aggRow log)

/-- One row of `df_combo`: the roster fields plus the joined feature row
(`none` when the actor never bid; the post-join `fillna` imputation only
rewrites feature payloads and touches neither `bidder_id` nor `outcome`
nor the row count, so it is not modelled further). -/
structure ComboRow where
  row : RosterRow
  feats : Option AggRow

/-- `merge(bids, how = 'left', on = 'bidder_id')`: every left row pairs
with each right row sharing its key, or survives alone with missing
features when no right row matches. -/
def leftJoin : List RosterRow → List AggRow → List ComboRow
  | [], _ => []
  | r :: rs, agg =>
    (match agg.filter (fun m => m.bidder_id = r.bidder_id) with
     | [] => [⟨r, none⟩]
     | ms => ms.map (fun m => ⟨r, some m⟩)) ++ leftJoin rs agg

/-- `df_combo = df_train.append(df_test).merge(bids, how = 'left', ...)`. -/
def df_combo (log : List Bid) (trainR testR : List RosterRow) : List ComboRow :=
  leftJoin (trainR ++ testR) (bidsTable log)

/-- `test_dat = df_combo[df_combo.bidder_id.isin(sample.bidder_id)]`. -/
def test_dat (combo : List ComboRow) (sampleIds : List String) : List ComboRow :=
  combo.filter (fun r => r.row.bidder_id ∈ sampleIds)

/-- `train_dat = df_combo[~pd.isnull(df_combo.outcome)]`. -/
def train_dat (combo : List ComboRow) : List ComboRow :=
  combo.filter (fun r => ¬r.row.outcome = none)

theorem length_filter_add_length_filter_not {α : Type} (l : List α) (p : α → Prop)
    [DecidablePred p] :
    (l.filter (fun a => p a)).length + (l.filter (fun a => ¬p a)).length = l.length := by
  induction l with
  | nil => rfl
  | cons x t ih =>
    by_cases hx : p x
    · rw [List.filter_cons_of_pos (by simp [hx]), List.filter_cons_of_neg (by simp [hx])]
      simp only [List.length_cons]
      omega
    · rw [List.filter_cons_of_neg (by simp [hx]), List.filter_cons_of_pos (by simp [hx])]
      simp only [List.length_cons]
      omega

theorem filter_key_length_le_one {agg : List AggRow}
    (h : (agg.map (fun m => m.bidder_id)).Nodup) (k : String) :
    (agg.filter (fun m => m.bidder_id = k)).length ≤ 1 := by
  induction agg with
  | nil => simp
  | cons m t ih =>
    rw [List.map_cons, List.nodup_cons] at h
    rcases h with ⟨hnot, ht⟩
    rw [List.filter_cons]
    by_cases hk : m.bidder_id = k
    · rw [if_pos (by simpa using hk)]
      have hnil : t.filter (fun m' => m'.bidder_id = k) = [] := by
        rw [List.filter_eq_nil]
        intro m' hm'
        simp only [decide_eq_true_eq]
        intro he
        exact hnot (List.mem_map.mpr ⟨m', hm', (hk.trans he.symm).symm⟩)
      rw [hnil]
      simp
    · rw [if_neg (by simpa using hk)]
      exact ih ht

theorem length_leftJoin {agg : List AggRow}
    (h : (agg.map (fun m => m.bidder_id)).Nodup) :
    ∀ rows : List RosterRow, (leftJoin rows agg).length = rows.length
  | [] => rfl
  | r :: rs => by
    rw [leftJoin, List.length_append, length_leftJoin h rs, List.length_cons]
    have hle := filter_key_length_le_one h r.bidder_id
    rcases hf : agg.filter (fun m => m.bidder_id = r.bidder_id) with _ | ⟨m, ms⟩
    · rw [hf]
      exact Nat.add_comm 1 rs.length
    · rw [hf] at hle ⊢
      simp only [List.length_map, List.length_cons, List.length_append] at hle ⊢
      omega

theorem bidsTable_keys_nodup (log : List Bid) :
    ((bidsTable log).map (fun m => m.bidder_id)).Nodup := by
  unfold bidsTable
  rw [List.map_map,
    show ((fun (m : AggRow) => m.bidder_id) ∘ aggRow log) = id from rfl,
    List.map_id]
  exact List.nodup_dedup _

/-! ### Claim C4: the re-split round-trip -/

def trRosterC4 : List RosterRow := [⟨"x", none, none, some 0⟩]

def teRosterC4 : List RosterRow := [⟨"y", none, none, none⟩]

/-- C4 counterexample: the code's test partition is selected by
membership in the submission template, not by label absence.  With an
empty template, the unlabeled roster row lands in neither partition, so
the partition sizes do not sum back to the roster size. -/
theorem c4_roundtrip_counterexample :
    (train_dat (df_combo [] trRosterC4 teRosterC4)).length +
      (test_dat (df_combo [] trRosterC4 teRosterC4) []).length ≠
    (trRosterC4 ++ teRosterC4).length := by decide

/-- C4 amended: the train partition is selected by label presence and the
test partition by template membership; whenever label absence coincides
with template membership over the joined table (the intended situation),
the two partition row counts sum exactly to the concatenated roster's row
count — in particular the left join itself preserves the row count, since
the aggregated table has one row per actor. -/
theorem c4_roundtrip_amended (log : List Bid) (trainR testR : List RosterRow)
    (sampleIds : List String)
    (h : ∀ r ∈ df_combo log trainR testR,
        (r.row.outcome = none ↔ r.row.bidder_id ∈ sampleIds)) :
    (train_dat (df_combo log trainR testR)).length +
      (test_dat (df_combo log trainR testR) sampleIds).length =
    (trainR ++ testR).length := by
  have hjoin : (df_combo log trainR testR).length = (trainR ++ testR).length :=
    length_leftJoin (bidsTable_keys_nodup log) _
  rw [← hjoin]
  unfold train_dat test_dat
  have hcongr : (df_combo log trainR testR).filter
        (fun r => r.row.bidder_id ∈ sampleIds) =
      (df_combo log trainR testR).filter (fun r => r.row.outcome = none) :=
    List.filter_congr (fun r hr => by
      have hiff := h r hr
      by_cases ho : r.row.outcome = none
      · simp [ho, hiff.mp ho]
      · have hnm : r.row.bidder_id ∉ sampleIds := fun hm => ho (hiff.mpr hm)
        simp [ho, hnm])
  rw [hcongr, Nat.add_comm]
  exact length_filter_add_length_filter_not _ _

def trRosterC4w : List RosterRow := [⟨"x", none, none, some 1⟩]

def teRosterC4w : List RosterRow := [⟨"y", none, none, none⟩]

theorem c4_roundtrip_amended_witness :
    (∀ r ∈ df_combo [] trRosterC4w teRosterC4w,
        (r.row.outcome = none ↔ r.row.bidder_id ∈ ["y"])) ∧
    (train_dat (df_combo [] trRosterC4w teRosterC4w)).length +
      (test_dat (df_combo [] trRosterC4w teRosterC4w) ["y"]).length =
    (trRosterC4w ++ teRosterC4w).length :=
  ⟨by decide, c4_roundtrip_amended [] trRosterC4w teRosterC4w ["y"] (by decide)⟩

/-! ### The pipeline tail: the order check, the bagged classifier and the
submission writer -/

/-- One entry of `bagged_preds`: the mean over the `rounds = 15`
iterations of the seeded classifier's predicted class-1 probability for
one test row.  `predictProba s i` is the opaque fitted classifier
(identical hyperparameters, `clf.set_params(seed = s)`) applied to test
row `i`, returning its (class-0, class-1) probability pair; iteration
`i in range(rounds)` uses seed `i + 1` and `preds_mat.mean(axis = 1)`
averages the 15 columns. -/
def bagged_preds (predictProba : ℕ → ℕ → ℚ × ℚ) (i : ℕ) : ℚ :=
  (((List.range 15).map (fun k => (predictProba (k + 1) i).2)).sum) / 15

/-- C5: for every classifier behaviour and every test row, the bagged
prediction equals the arithmetic mean of the class-1 probabilities of the
15 instances seeded 1 through 15. -/
theorem c5_bagged_mean_of_seeds (predictProba : ℕ → ℕ → ℚ × ℚ) (i : ℕ) :
    bagged_preds predictProba i =
      (∑ s ∈ Finset.Icc 1 15, (predictProba s i).2) / 15 := by
  rfl

/-! ### Claim C6: min-max scaling maps both partitions into the unit
interval -/

def listMin : List ℚ → ℚ
  | [] => 0
  | x :: xs => xs.foldl min x

def listMax : List ℚ → ℚ
  | [] => 0
  | x :: xs => xs.foldl max x

/-- `MinMaxScaler().fit(np.vstack((xtrain, xtest))).transform(...)` on one
numeric column (the scaler is column-wise) with the default feature range
(0, 1): sklearn computes `(x - data_min) / data_range` where a zero data
range is replaced by 1 (`_handle_zeros_in_scale`). -/
def mmScale (pool : List ℚ) (x : ℚ) : ℚ :=
  let dmin := listMin pool
  let drange := listMax pool - dmin
  (x - dmin) / (if drange = 0 then 1 else drange)

theorem foldl_min_le_init (xs : List ℚ) : ∀ a : ℚ, xs.foldl min a ≤ a := by
  induction xs with
  | nil => intro a; exact le_refl a
  | cons b t ih => intro a; exact le_trans (ih (min a b)) (min_le_left a b)

theorem foldl_min_le_mem {x : ℚ} {xs : List ℚ} (hx : x ∈ xs) :
    ∀ a : ℚ, xs.foldl min a ≤ x := by
  induction xs with
  | nil => cases hx
  | cons b t ih =>
    intro a
    rcases List.mem_cons.mp hx with rfl | hxt
    · exact le_trans (foldl_min_le_init t (min a x)) (min_le_right a x)
    · exact ih hxt (min a b)

theorem listMin_le_mem {x : ℚ} {pool : List ℚ} (hx : x ∈ pool) : listMin pool ≤ x := by
  rcases pool with _ | ⟨p, ps⟩
  · cases hx
  · rcases List.mem_cons.mp hx with rfl | h
    · exact foldl_min_le_init ps x
    · exact foldl_min_le_mem h p

theorem init_le_foldl_max (xs : List ℚ) : ∀ a : ℚ, a ≤ xs.foldl max a := by
  induction xs with
  | nil => intro a; exact le_refl a
  | cons b t ih => intro a; exact le_trans (le_max_left a b) (ih (max a b))

theorem mem_le_foldl_max {x : ℚ} {xs : List ℚ} (hx : x ∈ xs) :
    ∀ a : ℚ, x ≤ xs.foldl max a := by
  induction xs with
  | nil => cases hx
  | cons b t ih =>
    intro a
    rcases List.mem_cons.mp hx with rfl | hxt
    · exact le_trans (le_max_right a x) (init_le_foldl_max t (max a x))
    · exact ih hxt (max a b)

theorem mem_le_listMax {x : ℚ} {pool : List ℚ} (hx : x ∈ pool) : x ≤ listMax pool := by
  rcases pool with _ | ⟨p, ps⟩
  · cases hx
  · rcases List.mem_cons.mp hx with rfl | h
    · exact init_le_foldl_max ps x
    · exact mem_le_foldl_max h p

/-- C6: the scaler fitted on the row-wise stack of the train and test
columns maps every entry of either column into the closed interval
[0, 1]. -/
theorem c6_minmax_unit_interval (xtrainCol xtestCol : List ℚ) (x : ℚ)
    (hx : x ∈ xtrainCol ++ xtestCol) :
    0 ≤ mmScale (xtrainCol ++ xtestCol) x ∧
      mmScale (xtrainCol ++ xtestCol) x ≤ 1 := by
  have hmin : listMin (xtrainCol ++ xtestCol) ≤ x := listMin_le_mem hx
  have hmax : x ≤ listMax (xtrainCol ++ xtestCol) := mem_le_listMax hx
  simp only [mmScale]
  by_cases h0 : listMax (xtrainCol ++ xtestCol) - listMin (xtrainCol ++ xtestCol) = 0
  · have hxeq : x = listMin (xtrainCol ++ xtestCol) := by linarith
    rw [if_pos h0, hxeq]
    norm_num
  · have hrange : 0 < listMax (xtrainCol ++ xtestCol) - listMin (xtrainCol ++ xtestCol) :=
      lt_of_le_of_ne (by linarith) (Ne.symm h0)
    rw [if_neg h0]
    constructor
    · exact div_nonneg (by linarith) (le_of_lt hrange)
    · rw [div_le_one hrange]
      linarith

def xtrainColC6 : List ℚ := [1, 3]

def xtestColC6 : List ℚ := [2]

theorem c6_minmax_unit_interval_witness :
    (2 : ℚ) ∈ xtrainColC6 ++ xtestColC6 ∧
    (0 ≤ mmScale (xtrainColC6 ++ xtestColC6) 2 ∧
      mmScale (xtrainColC6 ++ xtestColC6) 2 ≤ 1) :=
  ⟨by decide, c6_minmax_unit_interval xtrainColC6 xtestColC6 2 (by decide)⟩

/-! ### Claim C7: `SelectPercentile(chi2, 25)` retains a quarter of the
columns and applies one support to both matrices -/

/-- Python list slicing `l[:k]`: a negative bound counts from the end,
clamped at zero. -/
def pyTake (k : Int) (l : List ℕ) : List ℕ :=
  if 0 ≤ k then l.take k.toNat else l.take (l.length - k.natAbs)

/-- `np.sort` of the chi2 score vector. -/
def sortedScores (scores : List ℚ) : List ℚ :=
  List.insertionSort (fun a b : ℚ => a ≤ b) scores

/-- The fractional rank `per/100 * (n - 1)` scipy interpolates at. -/
def pctIdx (scores : List ℚ) (per : ℚ) : ℚ :=
  per / 100 * ((scores.length : ℚ) - 1)

/-- `scipy.stats.scoreatpercentile(scores, per)` with the default linear
interpolation: the sorted value at the integer part of the rank, moved
towards the next sorted value by the fractional part. -/
def scoreatpercentile (scores : List ℚ) (per : ℚ) : ℚ :=
  let k := (Int.floor (pctIdx scores per)).toNat
  let lo := (sortedScores scores).getD k 0
  let hi := (sortedScores scores).getD (k + 1) lo
  lo + (pctIdx scores per - Int.floor (pctIdx scores per)) * (hi - lo)

/-- `SelectPercentile(chi2, percentile = 25)._get_support_mask`
(sklearn 0.16), as the ordered list of retained column indices: threshold
at the `100 - 25`th percentile of the scores, keep the strictly greater
columns, and when some score ties with the threshold add tied columns up
to `len(scores) * 25 // 100` columns in total.  The chi2 score vector is
the opaque `scores` argument. -/
def supportKept (scores : List ℚ) : List ℕ :=
  let thr := scoreatpercentile scores 75
  let mask := (List.range scores.length).filter (fun i => thr < scores.getD i 0)
  let ties := (List.range scores.length).filter (fun i => scores.getD i 0 = thr)
  if ties = [] then mask
  else
    let maxFeats : ℕ := scores.length * 25 / 100
    let keptTies := pyTake ((maxFeats : Int) - (mask.length : Int)) ties
    (List.range scores.length).filter (fun i => i ∈ mask ∨ i ∈ keptTies)

/-- `feats_25.transform` on one row: the entries at the retained indices
of the fitted support, in order. -/
def selTransformRow (scores : List ℚ) (row : List ℚ) : List ℚ :=
  (supportKept scores).map (fun i => row.getD i 0)

/-- `feats_25.transform` on a matrix — `xtrain` and `xtest` are both
transformed with the same fitted object. -/
def selTransform (scores : List ℚ) (m : List (List ℚ)) : List (List ℚ) :=
  m.map (selTransformRow scores)

theorem getD_zero_eq_getElem {l : List ℚ} {i : ℕ} (h : i < l.length) :
    l.getD i 0 = l[i] := by
  simp [List.getD_eq_getElem?_getD, List.getElem?_eq_getElem h]

theorem length_filter_range_getD (q : ℚ → Prop) [DecidablePred q] :
    ∀ l : List ℚ,
      ((List.range l.length).filter (fun i => q (l.getD i 0))).length =
        l.countP (fun x => q x)
  | [] => rfl
  | x :: l => by
    have h1 : (((List.range l.length).map Nat.succ).filter
          (fun i => q ((x :: l).getD i 0))) =
        ((List.range l.length).filter (fun i => q (l.getD i 0))).map Nat.succ := by
      rw [List.filter_map]
      rfl
    have IH := length_filter_range_getD q l
    rw [List.length_cons, List.range_succ_eq_map, List.filter_cons, h1]
    by_cases hq : q x
    · rw [if_pos (by simpa using hq), List.length_cons, List.length_map, IH,
        List.countP_cons]
      simp [hq]
    · rw [if_neg (by simpa using hq), List.length_map, IH, List.countP_cons]
      simp [hq]

theorem countP_gt_of_cut (s : List ℚ) (c : ℚ) (m : ℕ)
    (hlow : ∀ (i : ℕ) (h : i < s.length), i < m + 1 → ¬c < s[i])
    (hhigh : ∀ (i : ℕ) (h : i < s.length), m + 1 ≤ i → c < s[i]) :
    s.countP (fun x => c < x) = s.length - (m + 1) := by
  conv_lhs => rw [← List.take_append_drop (m + 1) s]
  rw [List.countP_append]
  have h1 : (s.take (m + 1)).countP (fun x => c < x) = 0 := by
    rw [List.countP_eq_zero]
    intro a ha
    rcases List.mem_iff_getElem.mp ha with ⟨i, hi, rfl⟩
    have hi1 : i < m + 1 := lt_of_lt_of_le hi (by rw [List.length_take]; exact min_le_left _ _)
    have hi2 : i < s.length := lt_of_lt_of_le hi (by rw [List.length_take]; exact min_le_right _ _)
    rw [List.getElem_take]
    simp only [decide_eq_true_eq]
    exact hlow i hi2 hi1
  have h2 : (s.drop (m + 1)).countP (fun x => c < x) = (s.drop (m + 1)).length := by
    rw [List.countP_eq_length]
    intro a ha
    rcases List.mem_iff_getElem.mp ha with ⟨i, hi, rfl⟩
    rw [List.getElem_drop]
    simp only [decide_eq_true_eq]
    exact hhigh _ _ (Nat.le_add_right _ _)
  rw [h1, h2, List.length_drop]
  omega

theorem sortedScores_le {scores : List ℚ} {i j : ℕ} (hij : i ≤ j)
    (hi : i < (sortedScores scores).length) (hj : j < (sortedScores scores).length) :
    (sortedScores scores)[i] ≤ (sortedScores scores)[j] := by
  rcases lt_or_eq_of_le hij with hlt | rfl
  · exact List.pairwise_iff_getElem.mp
      (List.sorted_insertionSort (fun a b : ℚ => a ≤ b) scores) i j hi hj hlt
  · exact le_refl _

/-- When no score equals the interpolated 75th percentile, the number of
scores strictly above it is exactly `⌈n/4⌉`. -/
theorem count_above_threshold (scores : List ℚ) (hne : scores ≠ [])
    (hnt : scoreatpercentile scores 75 ∉ scores) :
    scores.countP (fun x => scoreatpercentile scores 75 < x) =
      (scores.length + 3) / 4 := by
  have hperm := List.perm_insertionSort (fun a b : ℚ => a ≤ b) scores
  have hslen : (sortedScores scores).length = scores.length := hperm.length_eq
  have hn1 : 1 ≤ scores.length := List.length_pos.mpr hne
  have hcast : ((scores.length - 1 : ℕ) : ℚ) = (scores.length : ℚ) - 1 := by
    rw [Nat.cast_sub hn1, Nat.cast_one]
  have hidx : pctIdx scores 75 = ((3 * (scores.length - 1) : ℕ) : ℚ) / 4 := by
    unfold pctIdx
    rw [show ((3 * (scores.length - 1) : ℕ) : ℚ) = 3 * ((scores.length : ℚ) - 1) by
      rw [Nat.cast_mul, hcast]; norm_num]
    ring
  have hk : (⌊pctIdx scores 75⌋).toNat = 3 * (scores.length - 1) / 4 := by
    rw [hidx, Int.floor_toNat, show (4 : ℚ) = ((4 : ℕ) : ℚ) by norm_num,
      Nat.floor_div_nat, Nat.floor_natCast]
  have hmem : ∀ (i : ℕ) (h : i < (sortedScores scores).length),
      (sortedScores scores)[i] ∈ scores := fun i h =>
    hperm.mem_iff.mp (List.mem_iff_getElem.mpr ⟨i, h, rfl⟩)
  -- a one-element score list puts the percentile at a sorted entry
  have hn2 : 2 ≤ scores.length := by
    by_contra hcon
    have hne1 : scores.length = 1 := by omega
    apply hnt
    have hidx0 : pctIdx scores 75 = 0 := by
      rw [hidx, hne1]
      norm_num
    have hthr0 : scoreatpercentile scores 75 = (sortedScores scores).getD 0 0 := by
      simp only [scoreatpercentile]
      rw [hidx0]
      norm_num
    have h0 : 0 < (sortedScores scores).length := by omega
    rw [hthr0, getD_zero_eq_getElem h0]
    exact hmem 0 h0
  -- an integer rank would also put the percentile at a sorted entry
  have hndvd : ¬(4 ∣ 3 * (scores.length - 1)) := by
    intro hdvd
    rcases hdvd with ⟨c, hc⟩
    apply hnt
    have hidxc : pctIdx scores 75 = (c : ℚ) := by
      rw [hidx, hc, show ((4 * c : ℕ) : ℚ) = 4 * (c : ℚ) by push_cast; ring,
        mul_comm (4 : ℚ) (c : ℚ), mul_div_assoc]
      norm_num
    have hz : pctIdx scores 75 - (⌊pctIdx scores 75⌋ : ℚ) = 0 := by
      rw [hidxc, Int.floor_natCast]
      norm_num
    have hthrc : scoreatpercentile scores 75 =
        (sortedScores scores).getD ((⌊pctIdx scores 75⌋).toNat) 0 := by
      simp only [scoreatpercentile]
      rw [hz]
      ring
    have hkk : (⌊pctIdx scores 75⌋).toNat < (sortedScores scores).length := by
      rw [hslen, hk]
      omega
    rw [hthrc, getD_zero_eq_getElem hkk]
    exact hmem _ hkk
  -- abbreviate the integer part
  obtain ⟨k, hkdef⟩ : ∃ k, (⌊pctIdx scores 75⌋).toNat = k := ⟨_, rfl⟩
  have hkval : k = 3 * (scores.length - 1) / 4 := hkdef ▸ hk
  have hks : k + 1 < (sortedScores scores).length := by
    rw [hslen]
    omega
  have hks0 : k < (sortedScores scores).length := by omega
  have hlo : (sortedScores scores).getD k 0 = (sortedScores scores)[k] :=
    getD_zero_eq_getElem hks0
  have hhi : (sortedScores scores).getD (k + 1) ((sortedScores scores).getD k 0) =
      (sortedScores scores)[k + 1] := by
    simp [List.getD_eq_getElem?_getD, List.getElem?_eq_getElem hks]
  have hfr0 : 0 ≤ pctIdx scores 75 - (⌊pctIdx scores 75⌋ : ℚ) := by
    have := Int.floor_le (pctIdx scores 75)
    linarith
  have hfr1 : pctIdx scores 75 - (⌊pctIdx scores 75⌋ : ℚ) < 1 := by
    have := Int.lt_floor_add_one (pctIdx scores 75)
    linarith
  have hthr_def : scoreatpercentile scores 75 =
      (sortedScores scores)[k] + (pctIdx scores 75 - (⌊pctIdx scores 75⌋ : ℚ)) *
        ((sortedScores scores)[k + 1] - (sortedScores scores)[k]) := by
    simp only [scoreatpercentile]
    rw [hkdef, hhi, hlo]
  have hlelohi : (sortedScores scores)[k] ≤ (sortedScores scores)[k + 1] :=
    sortedScores_le (Nat.le_succ k) hks0 hks
  have hlo_lt : (sortedScores scores)[k] < scoreatpercentile scores 75 := by
    have hne_lo : (sortedScores scores)[k] ≠ scoreatpercentile scores 75 :=
      fun he => hnt (he ▸ hmem k hks0)
    have hge : (sortedScores scores)[k] ≤ scoreatpercentile scores 75 := by
      rw [hthr_def]
      nlinarith [mul_nonneg hfr0 (sub_nonneg.mpr hlelohi)]
    exact lt_of_le_of_ne hge hne_lo
  have hhi_gt : scoreatpercentile scores 75 < (sortedScores scores)[k + 1] := by
    have hne_hi : (sortedScores scores)[k + 1] ≠ scoreatpercentile scores 75 :=
      fun he => hnt (he ▸ hmem (k + 1) hks)
    have hle : scoreatpercentile scores 75 ≤ (sortedScores scores)[k + 1] := by
      rw [hthr_def]
      nlinarith [mul_le_mul_of_nonneg_right (le_of_lt hfr1) (sub_nonneg.mpr hlelohi)]
    exact lt_of_le_of_ne hle (fun he => hne_hi he.symm)
  have hcount : (sortedScores scores).countP
      (fun x => scoreatpercentile scores 75 < x) =
      (sortedScores scores).length - (k + 1) := by
    apply countP_gt_of_cut
    · intro i hi hik
      have hik' : i ≤ k := by omega
      have hle : (sortedScores scores)[i] ≤ (sortedScores scores)[k] :=
        sortedScores_le hik' hi hks0
      exact not_lt.mpr (le_of_lt (lt_of_le_of_lt hle hlo_lt))
    · intro i hi hik
      exact lt_of_lt_of_le hhi_gt (sortedScores_le hik hks hi)
  rw [← List.Perm.countP_eq _ hperm,
    show List.insertionSort (fun a b : ℚ => a ≤ b) scores = sortedScores scores from rfl,
    hcount, hslen]
  omega

/-- C7: whenever no chi2 score ties with the fitted threshold (the
claim's own deterministic tie-break proviso), the selector retains
exactly `⌈0.25 · n⌉` of the `n` columns, and the transform applied to the
test matrix selects by the identical retained index list
(`supportKept scores` of the one fitted object) as the transform applied
to the train matrix. -/
theorem c7_select_quarter_same_support (scores : List ℚ) (hne : scores ≠ [])
    (hnt : scoreatpercentile scores 75 ∉ scores) :
    (supportKept scores).length = (scores.length + 3) / 4 ∧
    (∀ xtr xte : List (List ℚ),
      selTransform scores xtr = xtr.map (selTransformRow scores) ∧
      selTransform scores xte = xte.map (selTransformRow scores)) := by
  refine ⟨?_, fun xtr xte => ⟨rfl, rfl⟩⟩
  have hties : (List.range scores.length).filter
      (fun i => scores.getD i 0 = scoreatpercentile scores 75) = [] := by
    rw [List.filter_eq_nil_iff]
    intro i hi
    simp only [decide_eq_true_eq]
    intro he
    have hilt : i < scores.length := List.mem_range.mp hi
    have hmem : scores.getD i 0 ∈ scores := by
      rw [getD_zero_eq_getElem hilt]
      exact List.mem_iff_getElem.mpr ⟨i, hilt, rfl⟩
    exact hnt (he ▸ hmem)
  have hsup : supportKept scores = (List.range scores.length).filter
      (fun i => scoreatpercentile scores 75 < scores.getD i 0) := by
    simp only [supportKept]
    rw [if_pos hties]
  rw [hsup,
    length_filter_range_getD (fun x => scoreatpercentile scores 75 < x) scores]
  exact count_above_threshold scores hne hnt

def scoresC7 : List ℚ := [1, 2, 3, 5]

theorem scoresC7_threshold : scoreatpercentile scoresC7 75 = 7 / 2 := by
  have hidx : pctIdx scoresC7 75 = 9 / 4 := by norm_num [pctIdx, scoresC7]
  have hfl : (⌊(9 / 4 : ℚ)⌋ : ℤ) = 2 := by rw [Int.floor_eq_iff] <;> norm_num
  have hsort : sortedScores scoresC7 = [1, 2, 3, 5] := by decide
  simp only [scoreatpercentile]
  rw [hidx, hfl, hsort]
  rw [show Int.toNat 2 = 2 from rfl]
  rw [show ([1, 2, 3, 5] : List ℚ).getD 2 0 = 3 from rfl]
  rw [show ([1, 2, 3, 5] : List ℚ).getD (2 + 1) 3 = 5 from rfl]
  norm_num

theorem scoresC7_threshold_notmem : scoreatpercentile scoresC7 75 ∉ scoresC7 := by
  rw [scoresC7_threshold]
  norm_num [scoresC7]

theorem c7_select_quarter_same_support_witness :
    scoresC7 ≠ [] ∧ scoreatpercentile scoresC7 75 ∉ scoresC7 ∧
    (supportKept scoresC7).length = (scoresC7.length + 3) / 4 :=
  ⟨by decide, scoresC7_threshold_notmem,
   (c7_select_quarter_same_support scoresC7 (by decide) scoresC7_threshold_notmem).1⟩

end Facebook
